import Mathlib

/-!
Shallow embedding of the SkinBlockConverter core
(`minecraft_skin_pixelart`: `color_matcher.py`, `block_palette.py`,
`cape_processor.py`, `skin_processor.py`) and proofs of the spec's
testable properties about it.

Conventions: Python ints are `ℤ`, exact float arithmetic is `ℝ`
(penalty terms, which stay in rational arithmetic, are `ℚ`), the
`float('inf')` initial minimum is `Option ℝ` with `none` for infinity,
PIL images are functions `ℕ × ℕ → RGBA`, and Python dicts built by
insertion of distinct keys are association lists.
-/

namespace SkinBlock

/-- An RGB color: three integer channels, as the Python tuples `(r, g, b)`. -/
abbrev Color3 := ℤ × ℤ × ℤ

/-- An RGBA pixel `(r, g, b, a)`. -/
abbrev RGBA := ℤ × ℤ × ℤ × ℤ

/-- The RGB part of a pixel, `pixel_color[:3]`. -/
def rgb (p : RGBA) : Color3 := (p.1, p.2.1, p.2.2.1)

/-- The alpha channel of a pixel, `pixel_color[3]`. -/
def alpha (p : RGBA) : ℤ := p.2.2.2

/-! ### ColorMatcher.color_distance_ciede2000 (color_matcher.py lines 97-173)

The source computes, from `color1 = (r1,g1,b1)` and `color2 = (r2,g2,b2)`:
a weighted-Euclidean base distance, a warmth penalty, a saturation
penalty and a gray penalty, and returns their sum.  Each local quantity
of the source is a definition here. -/

/-- `warmth = (r + g) / 2 - b` (Python true division, so a rational). -/
def warmth (c : Color3) : ℚ := ((c.1 : ℚ) + c.2.1) / 2 - c.2.2

/-- `sat = max(r, g, b) - min(r, g, b)` (an integer in the source). -/
def sat (c : Color3) : ℤ := max c.1 (max c.2.1 c.2.2) - min c.1 (min c.2.1 c.2.2)

/-- `brightness = (r + g + b) / 3`. -/
def brightness (c : Color3) : ℚ := ((c.1 : ℚ) + c.2.1 + c.2.2) / 3

/-- The `math.sqrt(weight_r * delta_r**2 + weight_g * delta_g**2 + weight_b * delta_b**2)`
term with `r_mean = (r1 + r2)/2`, `weight_r = 2 + r_mean/256`, `weight_g = 4.0`,
`weight_b = 2 + (255 - r_mean)/256`. -/
noncomputable def baseDistance (c1 c2 : Color3) : ℝ :=
  let r_mean : ℝ := ((c1.1 : ℝ) + (c2.1 : ℝ)) / 2
  let delta_r : ℝ := (c1.1 : ℝ) - (c2.1 : ℝ)
  let delta_g : ℝ := (c1.2.1 : ℝ) - (c2.2.1 : ℝ)
  let delta_b : ℝ := (c1.2.2 : ℝ) - (c2.2.2 : ℝ)
  Real.sqrt ((2 + r_mean / 256) * delta_r * delta_r +
    4 * delta_g * delta_g +
    (2 + (255 - r_mean) / 256) * delta_b * delta_b)

/-- The `warmth_penalty` of the source: `0.8 * |warmth1 - warmth2|` when the two
warmth values are strictly on opposite sides of the band `[-5, 5]`, else
`0.2 * |warmth1 - warmth2|`. -/
def warmthPenalty (c1 c2 : Color3) : ℚ :=
  if (warmth c1 > 5 ∧ warmth c2 < -5) ∨ (warmth c1 < -5 ∧ warmth c2 > 5) then
    |warmth c1 - warmth c2| * 0.8
  else
    |warmth c1 - warmth c2| * 0.2

/-- The `saturation_penalty = abs(sat1 - sat2) * 0.5`. -/
def saturationPenalty (c1 c2 : Color3) : ℚ :=
  |(sat c1 : ℚ) - (sat c2 : ℚ)| * 0.5

/-- The `gray_penalty`: `70.0` when the first color has medium brightness
(`50 < brightness1 < 200`) and noticeable saturation (`sat1 > 15`) while the
second is low-saturation (`sat2 < 15`) and low-warmth (`warmth2 < 10`); else `0`. -/
def grayPenalty (c1 c2 : Color3) : ℚ :=
  if 50 < brightness c1 ∧ brightness c1 < 200 ∧ sat c1 > 15 then
    (if sat c2 < 15 ∧ warmth c2 < 10 then 70 else 0)
  else 0

/-- `color_distance_ciede2000`: the returned
`distance + warmth_penalty + saturation_penalty + gray_penalty`. -/
noncomputable def color_distance_ciede2000 (c1 c2 : Color3) : ℝ :=
  baseDistance c1 c2 + (warmthPenalty c1 c2 : ℝ) +
    (saturationPenalty c1 c2 : ℝ) + (grayPenalty c1 c2 : ℝ)

/-! Basic lemmas about the metric. -/

theorem baseDistance_comm (a b : Color3) : baseDistance a b = baseDistance b a := by
  unfold baseDistance
  ring_nf

theorem warmthPenalty_comm (a b : Color3) : warmthPenalty a b = warmthPenalty b a := by
  unfold warmthPenalty
  rw [abs_sub_comm]
  refine if_congr ?_ rfl rfl
  tauto

theorem saturationPenalty_comm (a b : Color3) :
    saturationPenalty a b = saturationPenalty b a := by
  unfold saturationPenalty
  rw [abs_sub_comm]

theorem baseDistance_self (c : Color3) : baseDistance c c = 0 := by
  unfold baseDistance
  simp only [sub_self, mul_zero, zero_mul, add_zero, zero_add, Real.sqrt_zero]

theorem warmthPenalty_self (c : Color3) : warmthPenalty c c = 0 := by
  unfold warmthPenalty
  split <;> simp

theorem saturationPenalty_self (c : Color3) : saturationPenalty c c = 0 := by
  unfold saturationPenalty
  simp

theorem grayPenalty_self (c : Color3) : grayPenalty c c = 0 := by
  unfold grayPenalty
  split
  · next h =>
    rw [if_neg]
    intro hc
    exact absurd h.2.2 (not_lt.mpr (le_of_lt hc.1))
  · rfl

theorem warmthPenalty_nonneg (a b : Color3) : 0 ≤ warmthPenalty a b := by
  unfold warmthPenalty
  split <;> positivity

theorem saturationPenalty_nonneg (a b : Color3) : 0 ≤ saturationPenalty a b := by
  unfold saturationPenalty
  positivity

theorem grayPenalty_nonneg (a b : Color3) : 0 ≤ grayPenalty a b := by
  unfold grayPenalty
  split
  · split <;> norm_num
  · norm_num

theorem color_distance_nonneg (a b : Color3) : 0 ≤ color_distance_ciede2000 a b := by
  unfold color_distance_ciede2000
  have h1 := Real.sqrt_nonneg ((2 + (((a.1 : ℝ) + (b.1 : ℝ)) / 2) / 256) *
    ((a.1 : ℝ) - (b.1 : ℝ)) * ((a.1 : ℝ) - (b.1 : ℝ)) +
    4 * ((a.2.1 : ℝ) - (b.2.1 : ℝ)) * ((a.2.1 : ℝ) - (b.2.1 : ℝ)) +
    (2 + (255 - (((a.1 : ℝ) + (b.1 : ℝ)) / 2)) / 256) *
    ((a.2.2 : ℝ) - (b.2.2 : ℝ)) * ((a.2.2 : ℝ) - (b.2.2 : ℝ)))
  have h2 := warmthPenalty_nonneg a b
  have h3 := saturationPenalty_nonneg a b
  have h4 := grayPenalty_nonneg a b
  have hb : (0 : ℝ) ≤ baseDistance a b := Real.sqrt_nonneg _
  have h2' : (0 : ℝ) ≤ (warmthPenalty a b : ℝ) := by exact_mod_cast h2
  have h3' : (0 : ℝ) ≤ (saturationPenalty a b : ℝ) := by exact_mod_cast h3
  have h4' : (0 : ℝ) ≤ (grayPenalty a b : ℝ) := by exact_mod_cast h4
  linarith

/-- C5: the perceptual distance of every color to itself is zero:
`ColorMetric.distance(c, c) == 0` for all colors `c`. -/
theorem distance_self_eq_zero (c : Color3) : color_distance_ciede2000 c c = 0 := by
  unfold color_distance_ciede2000
  rw [baseDistance_self, warmthPenalty_self, saturationPenalty_self, grayPenalty_self]
  norm_num

/-- C6: the perceptual distance is asymmetric only through the gray-mismatch
term: subtracting the gray term, the remaining sum of base, warmth and
saturation terms is symmetric in the two arguments. -/
theorem distance_asymmetric_only_in_gray (a b : Color3) :
    color_distance_ciede2000 a b - (grayPenalty a b : ℝ) =
      color_distance_ciede2000 b a - (grayPenalty b a : ℝ) := by
  unfold color_distance_ciede2000
  rw [baseDistance_comm, warmthPenalty_comm, saturationPenalty_comm]
  ring

/-! ### ColorMatcher.find_closest_block (color_matcher.py lines 21-56)

The loop keeps `min_distance` (initially `float('inf')`, modelled by
`none`) and `closest_block`, updates both on a strict improvement, and
returns early when an updating entry has distance exactly `0`. -/

/-- The scan loop of `find_closest_block`, early exit included. -/
noncomputable def findLoop (p : Color3) :
    List (String × Color3) → Option ℝ → Option String → Option String
  | [], _, closest => closest
  | (name, c) :: rest, none, _ =>
      if color_distance_ciede2000 p c = 0 then some name
      else findLoop p rest (some (color_distance_ciede2000 p c)) (some name)
  | (name, c) :: rest, some m, closest =>
      if color_distance_ciede2000 p c < m then
        (if color_distance_ciede2000 p c = 0 then some name
         else findLoop p rest (some (color_distance_ciede2000 p c)) (some name))
      else findLoop p rest (some m) closest

/-- The same scan without the early exit: a full pass that keeps the first
entry attaining the minimum distance (updates only on strict improvement). -/
noncomputable def fullScan (p : Color3) :
    List (String × Color3) → Option ℝ → Option String → Option String
  | [], _, closest => closest
  | (name, c) :: rest, none, _ =>
      fullScan p rest (some (color_distance_ciede2000 p c)) (some name)
  | (name, c) :: rest, some m, closest =>
      if color_distance_ciede2000 p c < m then
        fullScan p rest (some (color_distance_ciede2000 p c)) (some name)
      else fullScan p rest (some m) closest

/-- `find_closest_block`: `None` for a transparent pixel (`alpha < 128`),
otherwise the scan over `get_all_blocks()`. -/
noncomputable def find_closest_block (pal : List (String × Color3)) (pixel_color : RGBA) :
    Option String :=
  if alpha pixel_color < 128 then none
  else findLoop (rgb pixel_color) pal none none

theorem fullScan_stuck_zero (p : Color3) :
    ∀ (l : List (String × Color3)) (cl : Option String), fullScan p l (some 0) cl = cl := by
  intro l
  induction l with
  | nil => intro cl; rfl
  | cons hd tl ih =>
    intro cl
    obtain ⟨n, c⟩ := hd
    simp only [fullScan]
    rw [if_neg (not_lt.mpr (color_distance_nonneg p c))]
    exact ih cl

theorem findLoop_eq_fullScan (p : Color3) :
    ∀ (l : List (String × Color3)) (minD : Option ℝ) (cl : Option String),
      findLoop p l minD cl = fullScan p l minD cl := by
  intro l
  induction l with
  | nil => intro minD cl; cases minD <;> rfl
  | cons hd tl ih =>
    intro minD cl
    obtain ⟨n, c⟩ := hd
    cases minD with
    | none =>
      simp only [findLoop, fullScan]
      by_cases h0 : color_distance_ciede2000 p c = 0
      · rw [if_pos h0, h0, fullScan_stuck_zero]
      · rw [if_neg h0]; exact ih _ _
    | some m =>
      simp only [findLoop, fullScan]
      by_cases hlt : color_distance_ciede2000 p c < m
      · rw [if_pos hlt, if_pos hlt]
        by_cases h0 : color_distance_ciede2000 p c = 0
        · rw [if_pos h0, h0, fullScan_stuck_zero]
        · rw [if_neg h0]; exact ih _ _
      · rw [if_neg hlt, if_neg hlt]; exact ih _ _

/-- Accumulator-general characterisation of `fullScan`: either no entry beats
the incoming minimum and the incoming `closest` survives, or the result is the
first entry attaining the minimum distance among those beating it. -/
theorem fullScan_spec (p : Color3) (l : List (String × Color3)) :
    ∀ (m : ℝ) (nm : Option String),
      (fullScan p l (some m) nm = nm ∧ ∀ e ∈ l, m ≤ color_distance_ciede2000 p e.2) ∨
      (∃ l1 e l2, l = l1 ++ e :: l2 ∧ fullScan p l (some m) nm = some e.1 ∧
        color_distance_ciede2000 p e.2 < m ∧
        (∀ e' ∈ l, color_distance_ciede2000 p e.2 ≤ color_distance_ciede2000 p e'.2) ∧
        (∀ e' ∈ l1, color_distance_ciede2000 p e.2 < color_distance_ciede2000 p e'.2)) := by
  induction l with
  | nil =>
    intro m nm
    left
    exact ⟨rfl, by simp⟩
  | cons hd tl ih =>
    intro m nm
    obtain ⟨n, c⟩ := hd
    simp only [fullScan]
    by_cases hlt : color_distance_ciede2000 p c < m
    · rw [if_pos hlt]
      rcases ih (color_distance_ciede2000 p c) (some n) with ⟨heq, hmin⟩ |
        ⟨l1, e, l2, htl, heq, hlt2, hmin, hstrict⟩
      · right
        refine ⟨[], (n, c), tl, rfl, heq, hlt, ?_, by simp⟩
        intro e' he'
        rcases List.mem_cons.mp he' with h | h
        · rw [h]
        · exact hmin e' h
      · right
        refine ⟨(n, c) :: l1, e, l2, by rw [htl]; rfl, heq, hlt2.trans hlt, ?_, ?_⟩
        · intro e' he'
          rcases List.mem_cons.mp he' with h | h
          · rw [h]; exact le_of_lt hlt2
          · exact hmin e' h
        · intro e' he'
          rcases List.mem_cons.mp he' with h | h
          · rw [h]; exact hlt2
          · exact hstrict e' h
    · rw [if_neg hlt]
      rcases ih m nm with ⟨heq, hmin⟩ | ⟨l1, e, l2, htl, heq, hlt2, hmin, hstrict⟩
      · left
        refine ⟨heq, ?_⟩
        intro e' he'
        rcases List.mem_cons.mp he' with h | h
        · rw [h]; exact not_lt.mp hlt
        · exact hmin e' h
      · right
        refine ⟨(n, c) :: l1, e, l2, by rw [htl]; rfl, heq, hlt2, ?_, ?_⟩
        · intro e' he'
          rcases List.mem_cons.mp he' with h | h
          · rw [h]; exact le_of_lt (hlt2.trans_le (not_lt.mp hlt))
          · exact hmin e' h
        · intro e' he'
          rcases List.mem_cons.mp he' with h | h
          · rw [h]; exact hlt2.trans_le (not_lt.mp hlt)
          · exact hstrict e' h

/-- On a nonempty palette, `fullScan` from the initial state returns the first
entry attaining the minimum distance. -/
theorem fullScan_none_spec (p : Color3) (l : List (String × Color3)) (hl : l ≠ []) :
    ∃ l1 e l2, l = l1 ++ e :: l2 ∧ fullScan p l none none = some e.1 ∧
      (∀ e' ∈ l, color_distance_ciede2000 p e.2 ≤ color_distance_ciede2000 p e'.2) ∧
      (∀ e' ∈ l1, color_distance_ciede2000 p e.2 < color_distance_ciede2000 p e'.2) := by
  cases l with
  | nil => exact absurd rfl hl
  | cons hd tl =>
    obtain ⟨n, c⟩ := hd
    simp only [fullScan]
    rcases fullScan_spec p tl (color_distance_ciede2000 p c) (some n) with ⟨heq, hmin⟩ |
      ⟨l1, e, l2, htl, heq, hlt2, hmin, hstrict⟩
    · refine ⟨[], (n, c), tl, rfl, heq, ?_, by simp⟩
      intro e' he'
      rcases List.mem_cons.mp he' with h | h
      · rw [h]
      · exact hmin e' h
    · refine ⟨(n, c) :: l1, e, l2, by rw [htl]; rfl, heq, ?_, ?_⟩
      · intro e' he'
        rcases List.mem_cons.mp he' with h | h
        · rw [h]; exact le_of_lt hlt2
        · exact hmin e' h
      · intro e' he'
        rcases List.mem_cons.mp he' with h | h
        · rw [h]; exact hlt2
        · exact hstrict e' h

/-- C2: for every opaque pixel (`alpha ≥ 128`) and nonempty palette,
`find_closest_block` returns the first palette entry of minimal perceptual
distance to the pixel color (no entry is strictly closer, and every entry
before the chosen one is strictly farther), and for every transparent pixel
(`alpha < 128`) it returns `None` for every palette whatsoever. -/
theorem find_closest_block_minimal (pal : List (String × Color3)) (pc : RGBA) :
    (alpha pc < 128 → find_closest_block pal pc = none) ∧
    (128 ≤ alpha pc → pal ≠ [] →
      ∃ l1 e l2, pal = l1 ++ e :: l2 ∧
        find_closest_block pal pc = some e.1 ∧
        (∀ e' ∈ pal,
          color_distance_ciede2000 (rgb pc) e.2 ≤ color_distance_ciede2000 (rgb pc) e'.2) ∧
        (∀ e' ∈ l1,
          color_distance_ciede2000 (rgb pc) e.2 < color_distance_ciede2000 (rgb pc) e'.2)) := by
  constructor
  · intro h
    unfold find_closest_block
    rw [if_pos h]
  · intro h hl
    unfold find_closest_block
    rw [if_neg (not_lt.mpr h), findLoop_eq_fullScan]
    exact fullScan_none_spec (rgb pc) pal hl

/-- Witness for C2 at the concrete palette `[("a",(0,0,0)), ("b",(9,9,9))]` and
pixel `(1,1,1,255)`. -/
theorem find_closest_block_minimal_witness :
    128 ≤ alpha ((1, 1, 1, 255) : RGBA) ∧
      ([(("a" : String), ((0 : ℤ), (0 : ℤ), (0 : ℤ))), ("b", (9, 9, 9))] :
        List (String × Color3)) ≠ [] ∧
      ∃ l1 e l2,
        ([(("a" : String), ((0 : ℤ), (0 : ℤ), (0 : ℤ))), ("b", (9, 9, 9))] :
          List (String × Color3)) = l1 ++ e :: l2 ∧
        find_closest_block [("a", (0, 0, 0)), ("b", (9, 9, 9))] (1, 1, 1, 255) = some e.1 ∧
        (∀ e' ∈ ([(("a" : String), ((0 : ℤ), (0 : ℤ), (0 : ℤ))), ("b", (9, 9, 9))] :
            List (String × Color3)),
          color_distance_ciede2000 (rgb (1, 1, 1, 255)) e.2 ≤
            color_distance_ciede2000 (rgb (1, 1, 1, 255)) e'.2) ∧
        (∀ e' ∈ l1,
          color_distance_ciede2000 (rgb (1, 1, 1, 255)) e.2 <
            color_distance_ciede2000 (rgb (1, 1, 1, 255)) e'.2) :=
  ⟨by norm_num [alpha], by simp,
    (find_closest_block_minimal [("a", (0, 0, 0)), ("b", (9, 9, 9))] (1, 1, 1, 255)).2
      (by norm_num [alpha]) (by simp)⟩

/-- C9: for every pixel with `alpha ≥ 128` and every nonempty palette, the
nearest-mode lookup never returns `None`. -/
theorem find_closest_block_total (pal : List (String × Color3)) (pc : RGBA)
    (ha : 128 ≤ alpha pc) (hp : pal ≠ []) :
    ∃ nm, find_closest_block pal pc = some nm := by
  unfold find_closest_block
  rw [if_neg (not_lt.mpr ha), findLoop_eq_fullScan]
  obtain ⟨l1, e, l2, -, heq, -, -⟩ := fullScan_none_spec (rgb pc) pal hp
  exact ⟨e.1, heq⟩

/-- Witness for C9 at the one-entry palette `[("w",(255,255,255))]` and pixel
`(3,4,5,200)`. -/
theorem find_closest_block_total_witness :
    128 ≤ alpha ((3, 4, 5, 200) : RGBA) ∧
      ([(("w" : String), ((255 : ℤ), (255 : ℤ), (255 : ℤ)))] : List (String × Color3)) ≠ [] ∧
      ∃ nm, find_closest_block [("w", (255, 255, 255))] (3, 4, 5, 200) = some nm :=
  ⟨by norm_num [alpha], by simp,
    find_closest_block_total [("w", (255, 255, 255))] (3, 4, 5, 200)
      (by norm_num [alpha]) (by simp)⟩

/-- C10: the early-exit optimisation in the nearest-mode scan never changes the
result: for every pixel color and palette, the scan that returns as soon as a
zero-distance entry is found equals the full scan keeping the first entry
attaining the minimum distance. -/
theorem early_exit_eq_full_scan (pal : List (String × Color3)) (c : Color3) :
    findLoop c pal none none = fullScan c pal none none :=
  findLoop_eq_fullScan c pal none none

/-! ### BlockPalette._calculate_average_color (block_palette.py lines 76-115) -/

/-- Python `round` evaluated on an exact rational: round to the nearest
integer, ties to the even neighbour. -/
def pyRound (q : ℚ) : ℤ :=
  if q - (⌊q⌋ : ℚ) < 1 / 2 then ⌊q⌋
  else if 1 / 2 < q - (⌊q⌋ : ℚ) then ⌊q⌋ + 1
  else if 2 ∣ ⌊q⌋ then ⌊q⌋ else ⌊q⌋ + 1

/-- The accumulation loop of `_calculate_average_color`: running
`(r_sum, g_sum, b_sum, weight_sum)` with `weight = a / 255.0` per pixel. -/
def avgLoop : List RGBA → ℚ × ℚ × ℚ × ℚ → ℚ × ℚ × ℚ × ℚ
  | [], acc => acc
  | (r, g, b, a) :: rest, acc =>
      avgLoop rest
        (acc.1 + (r : ℚ) * ((a : ℚ) / 255),
         acc.2.1 + (g : ℚ) * ((a : ℚ) / 255),
         acc.2.2.1 + (b : ℚ) * ((a : ℚ) / 255),
         acc.2.2.2 + (a : ℚ) / 255)

/-- `_calculate_average_color`: `(0, 0, 0)` when the weight sum is zero,
otherwise each channel sum divided by the weight sum and rounded. -/
def calculate_average_color (pixels : List RGBA) : Color3 :=
  if (avgLoop pixels (0, 0, 0, 0)).2.2.2 = 0 then (0, 0, 0)
  else
    (pyRound ((avgLoop pixels (0, 0, 0, 0)).1 / (avgLoop pixels (0, 0, 0, 0)).2.2.2),
     pyRound ((avgLoop pixels (0, 0, 0, 0)).2.1 / (avgLoop pixels (0, 0, 0, 0)).2.2.2),
     pyRound ((avgLoop pixels (0, 0, 0, 0)).2.2.1 / (avgLoop pixels (0, 0, 0, 0)).2.2.2))

/-- Closed form of the weight sum `Σ a/255`. -/
def weightSum (pixels : List RGBA) : ℚ := (pixels.map (fun p => (alpha p : ℚ) / 255)).sum

/-- Closed form of the alpha-weighted red channel sum. -/
def chanSumR (pixels : List RGBA) : ℚ :=
  (pixels.map (fun p => (p.1 : ℚ) * ((alpha p : ℚ) / 255))).sum

/-- Closed form of the alpha-weighted green channel sum. -/
def chanSumG (pixels : List RGBA) : ℚ :=
  (pixels.map (fun p => (p.2.1 : ℚ) * ((alpha p : ℚ) / 255))).sum

/-- Closed form of the alpha-weighted blue channel sum. -/
def chanSumB (pixels : List RGBA) : ℚ :=
  (pixels.map (fun p => (p.2.2.1 : ℚ) * ((alpha p : ℚ) / 255))).sum

theorem avgLoop_eq (pixels : List RGBA) :
    ∀ acc, avgLoop pixels acc =
      (acc.1 + chanSumR pixels, acc.2.1 + chanSumG pixels,
       acc.2.2.1 + chanSumB pixels, acc.2.2.2 + weightSum pixels) := by
  induction pixels with
  | nil =>
    intro acc
    obtain ⟨a1, a2, a3, a4⟩ := acc
    simp [avgLoop, chanSumR, chanSumG, chanSumB, weightSum]
  | cons hd tl ih =>
    intro acc
    obtain ⟨r, g, b, a⟩ := hd
    obtain ⟨a1, a2, a3, a4⟩ := acc
    simp only [avgLoop, chanSumR, chanSumG, chanSumB, weightSum, List.map_cons,
      List.sum_cons, alpha] at *
    rw [ih]
    simp only [Prod.mk.injEq]
    refine ⟨by ring, by ring, by ring, by ring⟩

theorem pyRound_intCast (n : ℤ) : pyRound (n : ℚ) = n := by
  unfold pyRound
  rw [Int.floor_intCast]
  rw [if_pos]
  norm_num

theorem pyRound_nearest (q : ℚ) : |(pyRound q : ℚ) - q| ≤ 1 / 2 := by
  have h0 : (0 : ℚ) ≤ q - (⌊q⌋ : ℚ) := by
    have := Int.floor_le q
    linarith
  have h1 : q - (⌊q⌋ : ℚ) < 1 := by
    have := Int.lt_floor_add_one q
    linarith
  unfold pyRound
  split
  · next h =>
    rw [abs_of_nonpos (by linarith)]
    linarith
  · next h =>
    split
    · next h2 =>
      push_cast
      rw [abs_of_nonneg (by linarith)]
      linarith
    · next h2 =>
      have hf : q - (⌊q⌋ : ℚ) = 1 / 2 := le_antisymm (not_lt.mp h2) (not_lt.mp h)
      split
      · rw [abs_of_nonpos (by linarith)]
        linarith
      · push_cast
        rw [abs_of_nonneg (by linarith)]
        linarith

theorem sums_of_uniform (r g b : ℤ) :
    ∀ l : List RGBA, (∀ p ∈ l, p = (r, g, b, 255)) →
      chanSumR l = r * l.length ∧ chanSumG l = g * l.length ∧
      chanSumB l = b * l.length ∧ weightSum l = l.length := by
  intro l
  induction l with
  | nil => intro _; simp [chanSumR, chanSumG, chanSumB, weightSum]
  | cons hd tl ih =>
    intro hall
    have hhd : hd = (r, g, b, 255) := hall hd (List.mem_cons_self hd tl)
    obtain ⟨hr, hg, hb, hw⟩ := ih (fun p hp => hall p (List.mem_cons_of_mem hd hp))
    subst hhd
    simp only [chanSumR, chanSumG, chanSumB, weightSum, List.map_cons, List.sum_cons,
      List.length_cons, alpha] at *
    push_cast
    refine ⟨by rw [hr]; ring, by rw [hg]; ring, by rw [hb]; ring, by rw [hw]; ring⟩

/-- C3: the representative color of a swatch texture is, per channel, the
alpha-weighted mean (weight `alpha/255`) rounded to the nearest integer
(Python rounding, which is within `1/2` of the exact mean); a fully
transparent texture gets pure black, and a nonempty texture of uniform
alpha `255` and solid color `(r,g,b)` gets exactly `(r,g,b)`. -/
theorem average_color_spec (pixels : List RGBA) :
    (weightSum pixels = 0 → calculate_average_color pixels = (0, 0, 0)) ∧
    (weightSum pixels ≠ 0 →
      calculate_average_color pixels =
        (pyRound (chanSumR pixels / weightSum pixels),
         pyRound (chanSumG pixels / weightSum pixels),
         pyRound (chanSumB pixels / weightSum pixels)) ∧
      ∀ q : ℚ, |(pyRound q : ℚ) - q| ≤ 1 / 2) ∧
    (∀ r g b : ℤ, pixels ≠ [] → (∀ p ∈ pixels, p = (r, g, b, 255)) →
      calculate_average_color pixels = (r, g, b)) := by
  have hs : avgLoop pixels (0, 0, 0, 0) =
      (chanSumR pixels, chanSumG pixels, chanSumB pixels, weightSum pixels) := by
    rw [avgLoop_eq]
    simp
  refine ⟨?_, ?_, ?_⟩
  · intro h
    simp only [calculate_average_color, hs]
    rw [if_pos h]
  · intro h
    refine ⟨?_, fun q => pyRound_nearest q⟩
    simp only [calculate_average_color, hs]
    rw [if_neg h]
  · intro r g b hne hall
    obtain ⟨hr, hg, hb, hw⟩ := sums_of_uniform r g b pixels hall
    have hn : (pixels.length : ℚ) ≠ 0 := by
      simpa using fun h => hne (List.length_eq_zero.mp h)
    simp only [calculate_average_color, hs, hr, hg, hb, hw]
    rw [if_neg hn]
    rw [mul_div_assoc, div_self hn, mul_one, mul_div_assoc, div_self hn, mul_one,
      mul_div_assoc, div_self hn, mul_one]
    rw [pyRound_intCast, pyRound_intCast, pyRound_intCast]

/-- Witness for C3: a solid one-pixel texture `(10,20,30,255)` averages to
exactly `(10,20,30)`, and an empty (weight-zero) texture to `(0,0,0)`. -/
theorem average_color_spec_witness :
    ([((10 : ℤ), (20 : ℤ), (30 : ℤ), (255 : ℤ))] : List RGBA) ≠ [] ∧
    (∀ p ∈ ([((10 : ℤ), (20 : ℤ), (30 : ℤ), (255 : ℤ))] : List RGBA), p = (10, 20, 30, 255)) ∧
    calculate_average_color [(10, 20, 30, 255)] = (10, 20, 30) ∧
    weightSum ([] : List RGBA) = 0 ∧
    calculate_average_color [] = (0, 0, 0) :=
  ⟨by simp, by simp,
   (average_color_spec [(10, 20, 30, 255)]).2.2 10 20 30 (by simp) (by simp),
   by simp [weightSum],
   (average_color_spec []).1 (by simp [weightSum])⟩

/-! ### CapeProcessor unique-mode assignment (cape_processor.py lines 91-191) -/

/-- `_find_best_unused_block`: build `(distance, name)` candidates from the
palette entries whose name is not in `used_blocks`, return `None` when there
are none, otherwise stable-sort by distance and return the first name. -/
noncomputable def find_best_unused_block (pal : List (String × Color3)) (color : Color3)
    (used : List String) : Option String :=
  let candidates := (pal.filter (fun e => decide (e.1 ∉ used))).map
    (fun e => (color_distance_ciede2000 color e.2, e.1))
  if candidates = [] then none
  else ((candidates.mergeSort (fun a b => decide (a.1 ≤ b.1))).head?).map Prod.snd

/-- PASS 2 of `process_cape`: walk the frequency-sorted colors, assigning each
one the best unused block (when one remains) and recording it in
`color_to_block` (an association list) and `used_blocks` in step. -/
noncomputable def assignLoop (pal : List (String × Color3)) :
    List Color3 → List (Color3 × String) → List String → List (Color3 × String)
  | [], acc, _ => acc
  | c :: rest, acc, used =>
    match find_best_unused_block pal c used with
    | some b => assignLoop pal rest (acc ++ [(c, b)]) (used ++ [b])
    | none => assignLoop pal rest acc used

/-- The unique-mode assignment built by `process_cape` for a list of distinct
colors (already sorted by descending frequency). -/
noncomputable def assignBlocks (pal : List (String × Color3)) (colors : List Color3) :
    List (Color3 × String) :=
  assignLoop pal colors [] []

/-- Lookup in an association list (`dict.get`); the dicts built by the
processors insert each key once, so the first binding is the binding. -/
def alookup {β : Type} : List (Color3 × β) → Color3 → Option β
  | [], _ => none
  | (k, v) :: rest, c => if k = c then some v else alookup rest c

theorem find_best_eq_none_iff (pal : List (String × Color3)) (color : Color3)
    (used : List String) :
    find_best_unused_block pal color used = none ↔ ∀ e ∈ pal, e.1 ∈ used := by
  unfold find_best_unused_block
  by_cases hnil : (pal.filter (fun e => decide (e.1 ∉ used))).map
      (fun e => (color_distance_ciede2000 color e.2, e.1)) = []
  · rw [if_pos hnil]
    simp only [true_iff]
    rw [List.map_eq_nil_iff, List.filter_eq_nil_iff] at hnil
    intro e he
    have := hnil e he
    simpa using this
  · rw [if_neg hnil]
    constructor
    · intro habs
      obtain ⟨cand, hcand⟩ := List.exists_mem_of_ne_nil _ hnil
      have hsnil : ((pal.filter (fun e => decide (e.1 ∉ used))).map
          (fun e => (color_distance_ciede2000 color e.2, e.1))).mergeSort
          (fun a b => decide (a.1 ≤ b.1)) ≠ [] := by
        intro hs
        apply hnil
        have hlen := (List.mergeSort_perm ((pal.filter (fun e => decide (e.1 ∉ used))).map
          (fun e => (color_distance_ciede2000 color e.2, e.1)))
          (fun a b => decide (a.1 ≤ b.1))).length_eq
        rw [hs] at hlen
        exact List.length_eq_zero.mp hlen.symm
      cases hsort : ((pal.filter (fun e => decide (e.1 ∉ used))).map
          (fun e => (color_distance_ciede2000 color e.2, e.1))).mergeSort
          (fun a b => decide (a.1 ≤ b.1)) with
      | nil => exact absurd hsort hsnil
      | cons hd tl => rw [hsort] at habs; simp at habs
    · intro hall
      exfalso
      apply hnil
      rw [List.map_eq_nil_iff, List.filter_eq_nil_iff]
      intro e he
      simpa using hall e he

theorem find_best_mem (pal : List (String × Color3)) (color : Color3) (used : List String)
    (b : String) (h : find_best_unused_block pal color used = some b) :
    b ∉ used ∧ b ∈ pal.map Prod.fst := by
  unfold find_best_unused_block at h
  by_cases hnil : (pal.filter (fun e => decide (e.1 ∉ used))).map
      (fun e => (color_distance_ciede2000 color e.2, e.1)) = []
  · rw [if_pos hnil] at h
    exact absurd h (by simp)
  · rw [if_neg hnil] at h
    cases hsort : ((pal.filter (fun e => decide (e.1 ∉ used))).map
        (fun e => (color_distance_ciede2000 color e.2, e.1))).mergeSort
        (fun a b => decide (a.1 ≤ b.1)) with
    | nil =>
      rw [hsort] at h
      exact absurd h (by simp)
    | cons hd tl =>
      rw [hsort] at h
      simp only [List.head?_cons, Option.map_some'] at h
      have hmem : hd ∈ (pal.filter (fun e => decide (e.1 ∉ used))).map
          (fun e => (color_distance_ciede2000 color e.2, e.1)) := by
        have hperm := List.mergeSort_perm ((pal.filter (fun e => decide (e.1 ∉ used))).map
          (fun e => (color_distance_ciede2000 color e.2, e.1)))
          (fun a b => decide (a.1 ≤ b.1))
        exact hperm.mem_iff.mp (by rw [hsort]; exact List.mem_cons_self _ _)
      obtain ⟨e, he, heq⟩ := List.mem_map.mp hmem
      obtain ⟨hepal, heused⟩ := List.mem_filter.mp he
      have hb2 : b = e.1 := by
        have h2 := Option.some.inj h
        rw [← h2, ← heq]
      subst hb2
      exact ⟨by simpa using heused, List.mem_map_of_mem Prod.fst hepal⟩

theorem find_best_is_some (pal : List (String × Color3)) (color : Color3)
    (used : List String) (h : ∃ e ∈ pal, e.1 ∉ used) :
    ∃ b, find_best_unused_block pal color used = some b := by
  have hne : find_best_unused_block pal color used ≠ none := by
    rw [Ne, find_best_eq_none_iff]
    push_neg
    obtain ⟨e, he, hu⟩ := h
    exact ⟨e, he, hu⟩
  obtain ⟨b, hb⟩ := Option.ne_none_iff_exists.mp hne
  exact ⟨b, hb.symm⟩

theorem exists_unused (pal : List (String × Color3)) (used : List String)
    (hpal : (pal.map Prod.fst).Nodup) (hu : used.Nodup)
    (hlen : used.length < pal.length) :
    ∃ e ∈ pal, e.1 ∉ used := by
  by_contra h
  push_neg at h
  have hsub : (pal.map Prod.fst).toFinset ⊆ used.toFinset := by
    intro x hx
    rw [List.mem_toFinset] at hx ⊢
    obtain ⟨e, he, rfl⟩ := List.mem_map.mp hx
    exact h e he
  have h1 : (pal.map Prod.fst).toFinset.card = pal.length := by
    rw [List.toFinset_card_of_nodup hpal, List.length_map]
  have h2 : used.toFinset.card = used.length := List.toFinset_card_of_nodup hu
  have := Finset.card_le_card hsub
  omega

theorem all_used_of_ge (pal : List (String × Color3)) (used : List String)
    (hpal : (pal.map Prod.fst).Nodup) (hu : used.Nodup)
    (hsub : ∀ u ∈ used, u ∈ pal.map Prod.fst) (hlen : pal.length ≤ used.length) :
    ∀ e ∈ pal, e.1 ∈ used := by
  have hsub' : used.toFinset ⊆ (pal.map Prod.fst).toFinset := by
    intro x hx
    rw [List.mem_toFinset] at hx ⊢
    exact hsub x hx
  have h1 : (pal.map Prod.fst).toFinset.card = pal.length := by
    rw [List.toFinset_card_of_nodup hpal, List.length_map]
  have h2 : used.toFinset.card = used.length := List.toFinset_card_of_nodup hu
  have heq : used.toFinset = (pal.map Prod.fst).toFinset :=
    Finset.eq_of_subset_of_card_le hsub' (by omega)
  intro e he
  have : e.1 ∈ (pal.map Prod.fst).toFinset := by
    rw [List.mem_toFinset]
    exact List.mem_map_of_mem Prod.fst he
  rw [← heq, List.mem_toFinset] at this
  exact this

/-- Key structure of the assignment pass: starting from a nodup `used` drawn
from the palette names, the keys of the produced map are the accumulator's
keys followed by the first `|palette| - |used|` colors, in order. -/
theorem assignLoop_keys (pal : List (String × Color3)) (hpal : (pal.map Prod.fst).Nodup) :
    ∀ (colors : List Color3) (acc : List (Color3 × String)) (used : List String),
      used.Nodup → (∀ u ∈ used, u ∈ pal.map Prod.fst) →
      (assignLoop pal colors acc used).map Prod.fst =
        acc.map Prod.fst ++ colors.take (pal.length - used.length) := by
  intro colors
  induction colors with
  | nil =>
    intro acc used _ _
    simp [assignLoop]
  | cons c rest ih =>
    intro acc used hu hsub
    by_cases hlen : used.length < pal.length
    · obtain ⟨b, hb⟩ := find_best_is_some pal c used (exists_unused pal used hpal hu hlen)
      obtain ⟨hbu, hbp⟩ := find_best_mem pal c used b hb
      simp only [assignLoop, hb]
      have hu' : (used ++ [b]).Nodup := by
        simp [List.nodup_append, hu, hbu]
      have hsub' : ∀ u ∈ used ++ [b], u ∈ pal.map Prod.fst := by
        intro u hmem
        rcases List.mem_append.mp hmem with h | h
        · exact hsub u h
        · rw [List.mem_singleton.mp h]
          exact hbp
      rw [ih (acc ++ [(c, b)]) (used ++ [b]) hu' hsub']
      have harith : pal.length - used.length = (pal.length - (used ++ [b]).length) + 1 := by
        simp only [List.length_append, List.length_singleton]
        omega
      rw [harith, List.take_succ_cons]
      simp
    · have hall := all_used_of_ge pal used hpal hu hsub (not_lt.mp hlen)
      have hnone : find_best_unused_block pal c used = none :=
        (find_best_eq_none_iff pal c used).mpr hall
      simp only [assignLoop, hnone]
      rw [ih acc used hu hsub]
      have h0 : pal.length - used.length = 0 := by omega
      simp [h0]

/-- The assigned block names are distinct: each step assigns a block outside
`used_blocks`, which mirrors the values of the accumulator. -/
theorem assignLoop_values_nodup (pal : List (String × Color3)) :
    ∀ (colors : List Color3) (acc : List (Color3 × String)),
      (acc.map Prod.snd).Nodup →
      ((assignLoop pal colors acc (acc.map Prod.snd)).map Prod.snd).Nodup := by
  intro colors
  induction colors with
  | nil =>
    intro acc hacc
    simpa [assignLoop] using hacc
  | cons c rest ih =>
    intro acc hacc
    cases hfb : find_best_unused_block pal c (acc.map Prod.snd) with
    | none =>
      simp only [assignLoop, hfb]
      exact ih acc hacc
    | some b =>
      obtain ⟨hbu, -⟩ := find_best_mem pal c (acc.map Prod.snd) b hfb
      simp only [assignLoop, hfb]
      have hmap : acc.map Prod.snd ++ [b] = (acc ++ [(c, b)]).map Prod.snd := by
        simp
      rw [hmap]
      apply ih (acc ++ [(c, b)])
      rw [← hmap]
      simp [List.nodup_append, hacc, hbu]

/-- Every value recorded by the assignment pass is a palette name. -/
theorem assignLoop_values_sub (pal : List (String × Color3)) :
    ∀ (colors : List Color3) (acc : List (Color3 × String)) (used : List String),
      (∀ q ∈ acc, q.2 ∈ pal.map Prod.fst) →
      ∀ q ∈ assignLoop pal colors acc used, q.2 ∈ pal.map Prod.fst := by
  intro colors
  induction colors with
  | nil =>
    intro acc used hacc
    simpa [assignLoop] using hacc
  | cons c rest ih =>
    intro acc used hacc
    cases hfb : find_best_unused_block pal c used with
    | none =>
      simp only [assignLoop, hfb]
      exact ih acc used hacc
    | some b =>
      obtain ⟨-, hbp⟩ := find_best_mem pal c used b hfb
      simp only [assignLoop, hfb]
      apply ih (acc ++ [(c, b)]) (used ++ [b])
      intro q hq
      rcases List.mem_append.mp hq with h | h
      · exact hacc q h
      · rw [List.mem_singleton.mp h]
        exact hbp

theorem alookup_mem {β : Type} :
    ∀ (m : List (Color3 × β)) (c : Color3) (b : β), alookup m c = some b → (c, b) ∈ m := by
  intro m
  induction m with
  | nil => intro c b h; exact absurd h (by simp [alookup])
  | cons hd tl ih =>
    intro c b h
    obtain ⟨k, v⟩ := hd
    simp only [alookup] at h
    by_cases hk : k = c
    · rw [if_pos hk] at h
      subst hk
      rw [Option.some.inj h]
      exact List.mem_cons_self _ _
    · rw [if_neg hk] at h
      exact List.mem_cons_of_mem _ (ih c b h)

theorem alookup_isSome {β : Type} :
    ∀ (m : List (Color3 × β)) (c : Color3), c ∈ m.map Prod.fst →
      ∃ b, alookup m c = some b := by
  intro m
  induction m with
  | nil => intro c h; simp at h
  | cons hd tl ih =>
    intro c h
    obtain ⟨k, v⟩ := hd
    by_cases hk : k = c
    · exact ⟨v, by simp [alookup, hk]⟩
    · rw [List.map_cons] at h
      have : c ∈ tl.map Prod.fst := by
        rcases List.mem_cons.mp h with h' | h'
        · exact absurd h'.symm hk
        · exact h'
      obtain ⟨b, hb⟩ := ih c this
      exact ⟨b, by simp [alookup, hk, hb]⟩

theorem alookup_eq_none {β : Type} :
    ∀ (m : List (Color3 × β)) (c : Color3), c ∉ m.map Prod.fst → alookup m c = none := by
  intro m
  induction m with
  | nil => intro c _; rfl
  | cons hd tl ih =>
    intro c h
    obtain ⟨k, v⟩ := hd
    simp only [List.map_cons, List.mem_cons] at h
    push_neg at h
    simp only [alookup]
    rw [if_neg (fun he => h.1 he.symm)]
    exact ih c h.2

theorem mem_of_values_nodup {β : Type} :
    ∀ (m : List (Color3 × β)), (m.map Prod.snd).Nodup →
      ∀ (c1 c2 : Color3) (b : β), (c1, b) ∈ m → (c2, b) ∈ m → c1 = c2 := by
  intro m
  induction m with
  | nil => intro _ c1 c2 b h; simp at h
  | cons hd tl ih =>
    intro hm c1 c2 b h1 h2
    obtain ⟨k, v⟩ := hd
    simp only [List.map_cons, List.nodup_cons] at hm
    obtain ⟨hv, htl⟩ := hm
    rcases List.mem_cons.mp h1 with e1 | e1 <;> rcases List.mem_cons.mp h2 with e2 | e2
    · rw [Prod.mk.injEq] at e1 e2
      rw [e1.1, e2.1]
    · exfalso
      apply hv
      have hb : b = v := (Prod.mk.injEq .. |>.mp e1).2
      rw [← hb]
      exact List.mem_map_of_mem Prod.snd e2
    · exfalso
      apply hv
      have hb : b = v := (Prod.mk.injEq .. |>.mp e2).2
      rw [← hb]
      exact List.mem_map_of_mem Prod.snd e1
    · exact ih htl c1 c2 b e1 e2

/-- C1: in unique mode with at most as many distinct colors as palette
entries, every distinct color is mapped to a palette swatch and no two
distinct colors receive the same swatch. -/
theorem unique_mode_bijective (pal : List (String × Color3)) (colors : List Color3)
    (hpal : (pal.map Prod.fst).Nodup) (_hcol : colors.Nodup)
    (hlen : colors.length ≤ pal.length) :
    (∀ c ∈ colors, ∃ b, alookup (assignBlocks pal colors) c = some b ∧
      b ∈ pal.map Prod.fst) ∧
    (∀ (c1 c2 : Color3) (b : String), alookup (assignBlocks pal colors) c1 = some b →
      alookup (assignBlocks pal colors) c2 = some b → c1 = c2) := by
  have hkeys : (assignBlocks pal colors).map Prod.fst = colors := by
    unfold assignBlocks
    rw [assignLoop_keys pal hpal colors [] [] List.nodup_nil (by simp)]
    simp only [List.map_nil, List.nil_append, List.length_nil, Nat.sub_zero]
    exact List.take_of_length_le hlen
  constructor
  · intro c hc
    obtain ⟨b, hb⟩ := alookup_isSome (assignBlocks pal colors) c (by rw [hkeys]; exact hc)
    refine ⟨b, hb, ?_⟩
    exact assignLoop_values_sub pal colors [] [] (by simp) (c, b)
      (alookup_mem (assignBlocks pal colors) c b hb)
  · intro c1 c2 b h1 h2
    have hnd : ((assignBlocks pal colors).map Prod.snd).Nodup :=
      assignLoop_values_nodup pal colors [] (by simp)
    exact mem_of_values_nodup (assignBlocks pal colors) hnd c1 c2 b
      (alookup_mem _ c1 b h1) (alookup_mem _ c2 b h2)

/-- Witness for C1 with palette `[("a",(0,0,0)),("b",(100,100,100))]` and the
two distinct colors `(0,0,0)` and `(100,100,100)`. -/
theorem unique_mode_bijective_witness :
    (([("a", (0, 0, 0)), ("b", (100, 100, 100))] :
        List (String × Color3)).map Prod.fst).Nodup ∧
    ([((0 : ℤ), (0 : ℤ), (0 : ℤ)), (100, 100, 100)] : List Color3).Nodup ∧
    ([((0 : ℤ), (0 : ℤ), (0 : ℤ)), (100, 100, 100)] : List Color3).length ≤
      ([("a", (0, 0, 0)), ("b", (100, 100, 100))] : List (String × Color3)).length ∧
    ((∀ c ∈ ([((0 : ℤ), (0 : ℤ), (0 : ℤ)), (100, 100, 100)] : List Color3),
      ∃ b, alookup (assignBlocks [("a", (0, 0, 0)), ("b", (100, 100, 100))]
          [(0, 0, 0), (100, 100, 100)]) c = some b ∧
        b ∈ ([("a", (0, 0, 0)), ("b", (100, 100, 100))] :
          List (String × Color3)).map Prod.fst) ∧
    (∀ (c1 c2 : Color3) (b : String),
      alookup (assignBlocks [("a", (0, 0, 0)), ("b", (100, 100, 100))]
        [(0, 0, 0), (100, 100, 100)]) c1 = some b →
      alookup (assignBlocks [("a", (0, 0, 0)), ("b", (100, 100, 100))]
        [(0, 0, 0), (100, 100, 100)]) c2 = some b → c1 = c2)) :=
  ⟨by simp, by decide, by simp,
    unique_mode_bijective [("a", (0, 0, 0)), ("b", (100, 100, 100))]
      [(0, 0, 0), (100, 100, 100)] (by simp) (by decide) (by simp)⟩

/-- C4: in unique mode with strictly more distinct colors than palette
entries, exactly `|palette|` colors (the first ones in frequency order) are
mapped, and every remaining color is left unmapped, with no error. -/
theorem unique_mode_exhaustion (pal : List (String × Color3)) (colors : List Color3)
    (hpal : (pal.map Prod.fst).Nodup) (hcol : colors.Nodup)
    (hlen : pal.length < colors.length) :
    (assignBlocks pal colors).length = pal.length ∧
    (assignBlocks pal colors).map Prod.fst = colors.take pal.length ∧
    (∀ c ∈ colors.drop pal.length, alookup (assignBlocks pal colors) c = none) := by
  have hkeys : (assignBlocks pal colors).map Prod.fst = colors.take pal.length := by
    unfold assignBlocks
    rw [assignLoop_keys pal hpal colors [] [] List.nodup_nil (by simp)]
    simp
  refine ⟨?_, hkeys, ?_⟩
  · have := congrArg List.length hkeys
    rw [List.length_map, List.length_take] at this
    omega
  · intro c hc
    apply alookup_eq_none
    rw [hkeys]
    intro htake
    exact List.disjoint_take_drop hcol (le_refl pal.length) htake hc

/-- Witness for C4: one palette entry, two distinct colors; exactly one color
is mapped and the other is unmapped. -/
theorem unique_mode_exhaustion_witness :
    (([("a", (0, 0, 0))] : List (String × Color3)).map Prod.fst).Nodup ∧
    ([((0 : ℤ), (0 : ℤ), (0 : ℤ)), (1, 1, 1)] : List Color3).Nodup ∧
    ([("a", (0, 0, 0))] : List (String × Color3)).length <
      ([((0 : ℤ), (0 : ℤ), (0 : ℤ)), (1, 1, 1)] : List Color3).length ∧
    ((assignBlocks [("a", (0, 0, 0))] [(0, 0, 0), (1, 1, 1)]).length =
      ([("a", (0, 0, 0))] : List (String × Color3)).length ∧
    (assignBlocks [("a", (0, 0, 0))] [(0, 0, 0), (1, 1, 1)]).map Prod.fst =
      ([((0 : ℤ), (0 : ℤ), (0 : ℤ)), (1, 1, 1)] : List Color3).take 1 ∧
    (∀ c ∈ ([((0 : ℤ), (0 : ℤ), (0 : ℤ)), (1, 1, 1)] : List Color3).drop 1,
      alookup (assignBlocks [("a", (0, 0, 0))] [(0, 0, 0), (1, 1, 1)]) c = none)) :=
  ⟨by simp, by decide, by simp,
    unique_mode_exhaustion [("a", (0, 0, 0))] [(0, 0, 0), (1, 1, 1)]
      (by simp) (by decide) (by simp)⟩

/-! ### Compositing (skin_processor.py lines 67-135, cape_processor.py lines 117-162) -/

/-- A raster image: the pixel color at each coordinate.  Block textures are
16×16; the 1024×1024 (or 1024×512) output canvas is indexed the same way. -/
abbrev Raster := ℕ × ℕ → RGBA

/-- The fully transparent pixel `(0, 0, 0, 0)` used to initialise the canvas. -/
def transparent : RGBA := (0, 0, 0, 0)

/-- `output.paste(texture, (px, py))` for a 16×16 texture: overwrite the
16×16 region at `(px, py)`, alpha included (no mask, no blending). -/
def pasteAt (canvas : Raster) (tex : Raster) (px py : ℕ) : Raster :=
  fun q =>
    if px ≤ q.1 ∧ q.1 < px + 16 ∧ py ≤ q.2 ∧ q.2 < py + 16 then tex (q.1 - px, q.2 - py)
    else canvas q

/-- Row-major pixel coordinates of a `w × h` image (`for y in range(h): for x
in range(w)`). -/
def coords (w h : ℕ) : List (ℕ × ℕ) :=
  (List.range h).flatMap (fun y => (List.range w).map (fun x => (x, y)))

/-- The cache consultation of `process_skin`: return the cached block name for
this color, or compute `find_closest_block` and record it. -/
noncomputable def cacheStep (pal : List (String × Color3)) (pc : RGBA)
    (cache : List (Color3 × Option String)) :
    Option String × List (Color3 × Option String) :=
  match alookup cache (rgb pc) with
  | some bn => (bn, cache)
  | none => (find_closest_block pal pc, cache ++ [(rgb pc, find_closest_block pal pc)])

/-- The per-pixel step of `process_skin`: skip transparent pixels (`alpha <
128`), consult the cache, skip colors whose lookup is `None`, otherwise paste
the block texture at `(x*16, y*16)`. -/
noncomputable def processPixelSkin (pal : List (String × Color3)) (tex : String → Raster)
    (skin : Raster) (st : List (Color3 × Option String) × Raster) (xy : ℕ × ℕ) :
    List (Color3 × Option String) × Raster :=
  if alpha (skin xy) < 128 then st
  else
    match cacheStep pal (skin xy) st.1 with
    | (none, cache2) => (cache2, st.2)
    | (some name, cache2) => (cache2, pasteAt st.2 (tex name) (xy.1 * 16) (xy.2 * 16))

/-- `process_skin`: fold the per-pixel step over the 64×64 source in row-major
order, from an empty cache and a fully transparent 1024×1024 canvas. -/
noncomputable def process_skin (pal : List (String × Color3)) (tex : String → Raster)
    (skin : Raster) : Raster :=
  (List.foldl (processPixelSkin pal tex skin) ([], fun _ => transparent) (coords 64 64)).2

/-- The per-pixel step of PASS 3 of `process_cape`: skip transparent pixels
and colors absent from `color_to_block`, otherwise paste the assigned block at
`(x*16, y*16)`. -/
def processPixelCape (m : List (Color3 × String)) (tex : String → Raster) (cape : Raster)
    (out : Raster) (xy : ℕ × ℕ) : Raster :=
  if alpha (cape xy) < 128 then out
  else
    match alookup m (rgb (cape xy)) with
    | none => out
    | some name => pasteAt out (tex name) (xy.1 * 16) (xy.2 * 16)

/-- PASS 3 of `process_cape`: fold over the 64×32 source in row-major order
from a fully transparent 1024×512 canvas, given the `color_to_block` map. -/
def render_cape (m : List (Color3 × String)) (tex : String → Raster) (cape : Raster) :
    Raster :=
  List.foldl (processPixelCape m tex cape) (fun _ => transparent) (coords 64 32)

/-- A paste at a different source pixel's block never touches the 16×16 block
of `(x, y)`. -/
theorem pasteAt_outside_block (out : Raster) (t : Raster) (x' y' x y dx dy : ℕ)
    (hdx : dx < 16) (hdy : dy < 16) (hne : (x', y') ≠ (x, y)) :
    pasteAt out t (x' * 16) (y' * 16) (x * 16 + dx, y * 16 + dy) =
      out (x * 16 + dx, y * 16 + dy) := by
  unfold pasteAt
  rw [if_neg]
  rintro ⟨h1, h2, h3, h4⟩
  apply hne
  have hx : x' = x := by omega
  have hy : y' = y := by omega
  rw [hx, hy]

theorem processPixelSkin_preserves (pal : List (String × Color3)) (tex : String → Raster)
    (skin : Raster) (x y dx dy : ℕ) (hdx : dx < 16) (hdy : dy < 16)
    (htr : alpha (skin (x, y)) < 128) (st : List (Color3 × Option String) × Raster)
    (xy : ℕ × ℕ) :
    (processPixelSkin pal tex skin st xy).2 (x * 16 + dx, y * 16 + dy) =
      st.2 (x * 16 + dx, y * 16 + dy) := by
  unfold processPixelSkin
  by_cases ha : alpha (skin xy) < 128
  · rw [if_pos ha]
  · rw [if_neg ha]
    have hne : xy ≠ (x, y) := by
      intro h
      rw [h] at ha
      exact ha htr
    obtain ⟨xx, yy⟩ := xy
    cases h : cacheStep pal (skin (xx, yy)) st.1 with
    | mk bn cache2 =>
      cases bn with
      | none => rfl
      | some name =>
        exact pasteAt_outside_block st.2 (tex name) xx yy x y dx dy hdx hdy hne

theorem processPixelCape_preserves (m : List (Color3 × String)) (tex : String → Raster)
    (cape : Raster) (x y dx dy : ℕ) (hdx : dx < 16) (hdy : dy < 16)
    (htr : alpha (cape (x, y)) < 128) (out : Raster) (xy : ℕ × ℕ) :
    processPixelCape m tex cape out xy (x * 16 + dx, y * 16 + dy) =
      out (x * 16 + dx, y * 16 + dy) := by
  unfold processPixelCape
  by_cases ha : alpha (cape xy) < 128
  · rw [if_pos ha]
  · rw [if_neg ha]
    have hne : xy ≠ (x, y) := by
      intro h
      rw [h] at ha
      exact ha htr
    obtain ⟨xx, yy⟩ := xy
    cases alookup m (rgb (cape (xx, yy))) with
    | none => rfl
    | some name =>
      exact pasteAt_outside_block out (tex name) xx yy x y dx dy hdx hdy hne

theorem foldl_skin_preserves (pal : List (String × Color3)) (tex : String → Raster)
    (skin : Raster) (x y dx dy : ℕ) (hdx : dx < 16) (hdy : dy < 16)
    (htr : alpha (skin (x, y)) < 128) :
    ∀ (l : List (ℕ × ℕ)) (st : List (Color3 × Option String) × Raster),
      (List.foldl (processPixelSkin pal tex skin) st l).2 (x * 16 + dx, y * 16 + dy) =
        st.2 (x * 16 + dx, y * 16 + dy) := by
  intro l
  induction l with
  | nil => intro st; rfl
  | cons hd tl ih =>
    intro st
    rw [List.foldl_cons, ih, processPixelSkin_preserves pal tex skin x y dx dy hdx hdy htr]

theorem foldl_cape_preserves (m : List (Color3 × String)) (tex : String → Raster)
    (cape : Raster) (x y dx dy : ℕ) (hdx : dx < 16) (hdy : dy < 16)
    (htr : alpha (cape (x, y)) < 128) :
    ∀ (l : List (ℕ × ℕ)) (out : Raster),
      List.foldl (processPixelCape m tex cape) out l (x * 16 + dx, y * 16 + dy) =
        out (x * 16 + dx, y * 16 + dy) := by
  intro l
  induction l with
  | nil => intro out; rfl
  | cons hd tl ih =>
    intro out
    rw [List.foldl_cons, ih, processPixelCape_preserves m tex cape x y dx dy hdx hdy htr]

/-- C7: a source pixel with `alpha < 128` leaves its whole 16×16 output block
at `(x*16, y*16)` fully transparent (the canvas initialisation), in both the
skin and the cape compositing passes. -/
theorem transparent_pixel_transparent_block (pal : List (String × Color3))
    (tex : String → Raster) (skin : Raster) (m : List (Color3 × String)) (cape : Raster)
    (x y dx dy : ℕ) (hdx : dx < 16) (hdy : dy < 16) :
    (alpha (skin (x, y)) < 128 →
      process_skin pal tex skin (x * 16 + dx, y * 16 + dy) = transparent) ∧
    (alpha (cape (x, y)) < 128 →
      render_cape m tex cape (x * 16 + dx, y * 16 + dy) = transparent) := by
  constructor
  · intro htr
    unfold process_skin
    rw [foldl_skin_preserves pal tex skin x y dx dy hdx hdy htr]
  · intro htr
    unfold render_cape
    rw [foldl_cape_preserves m tex cape x y dx dy hdx hdy htr]

/-- Witness for C7 on an all-transparent source at pixel `(2, 3)` and block
offset `(5, 7)`. -/
theorem transparent_pixel_transparent_block_witness :
    (5 : ℕ) < 16 ∧ (7 : ℕ) < 16 ∧
    alpha ((fun _ => (0, 0, 0, 0) : Raster) (2, 3)) < 128 ∧
    process_skin [] (fun _ => fun _ => (0, 0, 0, 0)) (fun _ => (0, 0, 0, 0))
      (2 * 16 + 5, 3 * 16 + 7) = transparent ∧
    render_cape [] (fun _ => fun _ => (0, 0, 0, 0)) (fun _ => (0, 0, 0, 0))
      (2 * 16 + 5, 3 * 16 + 7) = transparent :=
  ⟨by norm_num, by norm_num, by norm_num [alpha],
    (transparent_pixel_transparent_block [] (fun _ => fun _ => (0, 0, 0, 0))
      (fun _ => (0, 0, 0, 0)) [] (fun _ => (0, 0, 0, 0)) 2 3 5 7
      (by norm_num) (by norm_num)).1 (by norm_num [alpha]),
    (transparent_pixel_transparent_block [] (fun _ => fun _ => (0, 0, 0, 0))
      (fun _ => (0, 0, 0, 0)) [] (fun _ => (0, 0, 0, 0)) 2 3 5 7
      (by norm_num) (by norm_num)).2 (by norm_num [alpha])⟩

/-! ### BlockPalette.load_blocks (block_palette.py lines 29-74) -/

/-- A directory entry as seen by `load_blocks`: a filename and the decode
result of `Image.open` plus `convert('RGBA')` (`none` when decoding raises). -/
structure DirEntry where
  filename : String
  decoded : Option (List RGBA)

/-- The palette source path: missing, an existing non-directory, or a
directory with its listing (`os.path.exists` / `os.path.isdir` / `os.listdir`). -/
inductive SourceDir where
  | missing : SourceDir
  | file : SourceDir
  | dir : List DirEntry → SourceDir

/-- The two load-time failures of `load_blocks`. -/
inductive LoadError where
  | blockDirectoryNotFound : LoadError
  | blockPaletteEmpty : LoadError

/-- The `filename.lower().endswith('.png')` filter. -/
def isPngName (s : String) : Bool := s.toLower.endsWith ".png"

/-- `os.path.splitext(filename)[0]` for a filename ending in a 4-character
`.png` extension. -/
def stripExt (s : String) : String := s.dropRight 4

/-- The loading loop over the directory listing: skip non-`.png` names, skip
entries whose decode raises (logged, then `continue`), and for each loaded
entry record its block name, texture and cached average color. -/
def loadLoop : List DirEntry → List (String × List RGBA × Color3)
  | [] => []
  | e :: rest =>
    if isPngName e.filename then
      match e.decoded with
      | some texture =>
          (stripExt e.filename, texture, calculate_average_color texture) :: loadLoop rest
      | none => loadLoop rest
    else loadLoop rest

/-- `load_blocks`: `BlockDirectoryNotFoundError` when the path is missing or
not a directory, `BlockPaletteEmptyError` when `loaded_count == 0`, otherwise
the loaded palette. -/
def load_blocks : SourceDir → Except LoadError (List (String × List RGBA × Color3))
  | SourceDir.missing => Except.error LoadError.blockDirectoryNotFound
  | SourceDir.file => Except.error LoadError.blockDirectoryNotFound
  | SourceDir.dir entries =>
    if (loadLoop entries).length = 0 then Except.error LoadError.blockPaletteEmpty
    else Except.ok (loadLoop entries)

/-- An entry is valid iff its name passes the `.png` filter and it decodes. -/
def validEntry (e : DirEntry) : Bool := isPngName e.filename && e.decoded.isSome

theorem loadLoop_length (entries : List DirEntry) :
    (loadLoop entries).length = entries.countP validEntry := by
  induction entries with
  | nil => rfl
  | cons e rest ih =>
    simp only [loadLoop]
    by_cases hp : isPngName e.filename = true
    · rw [if_pos hp]
      cases hd : e.decoded with
      | some t => simp [List.countP_cons, validEntry, hp, hd, ih]
      | none => simp [List.countP_cons, validEntry, hp, hd, ih]
    · rw [if_neg hp]
      simp [List.countP_cons, validEntry, hp, ih]

/-- C8: palette loading fails with `BlockDirectoryNotFoundError` when the
source is missing or not a directory; it fails with `BlockPaletteEmptyError`
exactly when zero valid entries load; and a decode failure anywhere in the
listing is recovered locally, the rest of the load being unchanged. -/
theorem load_blocks_errors :
    (load_blocks SourceDir.missing = Except.error LoadError.blockDirectoryNotFound) ∧
    (load_blocks SourceDir.file = Except.error LoadError.blockDirectoryNotFound) ∧
    (∀ entries : List DirEntry,
      load_blocks (SourceDir.dir entries) = Except.error LoadError.blockPaletteEmpty ↔
        entries.countP validEntry = 0) ∧
    (∀ (es1 es2 : List DirEntry) (e : DirEntry), e.decoded = none →
      loadLoop (es1 ++ e :: es2) = loadLoop (es1 ++ es2)) := by
  refine ⟨rfl, rfl, ?_, ?_⟩
  · intro entries
    simp only [load_blocks]
    rw [← loadLoop_length]
    by_cases h : (loadLoop entries).length = 0
    · rw [if_pos h]
      simpa using h
    · rw [if_neg h]
      constructor
      · intro habs
        exact absurd habs (by simp)
      · intro h0
        exact absurd h0 h
  · intro es1 es2 e he
    induction es1 with
    | nil =>
      simp only [List.nil_append, loadLoop]
      by_cases hp : isPngName e.filename = true
      · rw [if_pos hp, he]
      · rw [if_neg hp]
    | cons a rest ih =>
      simp only [List.cons_append, loadLoop]
      by_cases hp : isPngName a.filename = true
      · rw [if_pos hp, if_pos hp]
        cases hd : a.decoded with
        | some t => simp [ih]
        | none => exact ih
      · rw [if_neg hp, if_neg hp]
        exact ih

/-- Witness for C8: a failing decode in front of a valid entry is skipped, and
an empty directory raises the empty-palette error. -/
theorem load_blocks_errors_witness :
    (DirEntry.mk "bad.png" none).decoded = none ∧
    loadLoop [DirEntry.mk "bad.png" none, DirEntry.mk "a.png" (some [(1, 2, 3, 255)])] =
      loadLoop [DirEntry.mk "a.png" (some [(1, 2, 3, 255)])] ∧
    load_blocks (SourceDir.dir []) = Except.error LoadError.blockPaletteEmpty :=
  ⟨rfl,
    load_blocks_errors.2.2.2 [] [DirEntry.mk "a.png" (some [(1, 2, 3, 255)])]
      (DirEntry.mk "bad.png" none) rfl,
    (load_blocks_errors.2.2.1 []).mpr rfl⟩

end SkinBlock
